import Mathlib

/-!
Shallow embedding of the translate_replace program (src/main.rs).

The program scans text files for placeholders of the shape
key-in-quotes, optional space, pipe, optional space, the word translate,
and replaces each placeholder with the string found by walking a JSON
dictionary along the dot-separated key.

Embedded here:
  * Json                  - the serde_json Value tree (numeric payloads are
                            modelled as integers; all claims distinguish
                            values only up to being a string or not);
  * Json.indexStr/indexNat - the serde_json Index impls used by value[k]
                            and value[i], which are total and yield null on
                            every miss (absent field, out of range index,
                            wrong shape);
  * read_json_path        - the fold over enumerated dot segments
                            (src/main.rs lines 127-145);
  * matchAt / is_match / tokens - the fixed regex
                            (quote class)(key group of one or more
                            non-pipe chars)(quote class)(optional space)
                            (pipe)(optional space)(word translate)
                            with leftmost-first semantics, specialised by
                            hand to a deterministic matcher: at a given
                            start the matched pipe is necessarily the first
                            pipe after the start, the greedy key group ends
                            at the closing quote sitting right before the
                            pipe or before one space before the pipe, and
                            the tail consumes at most one space before the
                            word translate;
  * replace_with_string   - TranslateFinder::replace_with_string
                            (src/main.rs lines 90-109): replace_all with a
                            capture closure and a did_replace flag;
  * processFile           - the per-file inner dictionary loop of
                            apply_translation (src/main.rs lines 52-65);
                            file enumeration and I/O are external
                            collaborators, so the loop is embedded as a
                            function of the content that was read once.
-/

namespace TranslateReplace

/-- JSON tree mirroring serde_json Value. -/
inductive Json where
  | null : Json
  | bool : Bool → Json
  | num : Int → Json
  | str : String → Json
  | arr : List Json → Json
  | obj : List (String × Json) → Json

/-- Indexing a value by a field name, as the serde_json Index impl for str:
on an object it returns the entry for the key, or null when the key is
absent; on every non-object value it returns null. -/
def Json.indexStr : Json → String → Json
  | .obj fields, k => (((fields.find? (fun p => p.1 == k))).map Prod.snd).getD .null
  | _, _ => .null

/-- Indexing a value by an integer position, as the serde_json Index impl for
usize: on an array it returns the element, or null when out of range; on
every non-array value it returns null. -/
def Json.indexNat : Json → Nat → Json
  | .arr xs, i => xs.getD i .null
  | _, _ => .null

/-- The Rust usize parse used on each path segment: an optional leading plus
sign, then one or more ASCII digits, rejecting values above the 64 bit
usize maximum. -/
def parseUsize (seg : List Char) : Option Nat :=
  let digits := match seg with
    | '+' :: rest => rest
    | s => s
  if digits.isEmpty then none
  else if digits.all Char.isDigit then
    let n := digits.foldl (fun a c => a * 10 + (c.toNat - (('0').toNat))) 0
    if n < 2 ^ 64 then some n else none
  else none

/-- Splitting on the dot separator as Rust split does: n separators give
n plus one pieces, empty pieces included, and the empty input gives one
empty piece. -/
def splitDot : List Char → List (List Char)
  | [] => [[]]
  | c :: cs =>
    match splitDot cs with
    | [] => [[]]
    | g :: gs => if c = '.' then [] :: g :: gs else (c :: g) :: gs

/-- One step of path resolution: a segment that parses as usize indexes the
value as an array position, any other segment indexes it as an object
field. -/
def segIndex (v : Json) (seg : List Char) : Json :=
  match parseUsize seg with
  | some i => v.indexNat i
  | none => v.indexStr (String.mk seg)

/-- read_json_path from src/main.rs lines 127-145: fold over the enumerated
dot segments starting from a none accumulator; the first segment indexes
the root, later segments index the running value, and a none accumulator is
propagated. -/
def read_json_path (value : Json) (path : List Char) : Option Json :=
  (((splitDot path)).enum).foldl
    (fun acc f =>
      if f.1 = 0 then some (segIndex value f.2)
      else
        match acc with
        | none => none
        | some a => some (segIndex a f.2))
    none

/-- The single quote character. -/
def squote : Char := Char.ofNat 39

/-- The double quote character. -/
def dquote : Char := Char.ofNat 34

/-- The quote character class of the fixed pattern. -/
def isQuote (c : Char) : Bool := c = squote || c = dquote

/-- Splits a list at its first pipe character, returning the pipe-free part
before it and the part after it; none when no pipe occurs. -/
def findPipe : List Char → Option (List Char × List Char)
  | [] => none
  | c :: rest =>
    if c = '|' then some ([], rest)
    else (findPipe rest).map (fun p => (c :: p.1, p.2))

/-- Given the characters strictly between the opening quote and the matched
pipe, extract the capture of the greedy key group: the part before the pipe
must end with a closing quote followed by at most one space, and the
nonempty remainder before that closing quote is the key. The greedy key
group prefers the later closing quote, which is exactly the last or the
second to last character before the pipe. -/
def keyOfRev : List Char → Option (List Char)
  | [] => none
  | c :: rev =>
    if isQuote c then
      if rev.isEmpty then none else some rev.reverse
    else if c = ' ' then
      match rev with
      | [] => none
      | c2 :: rev2 => if isQuote c2 && !rev2.isEmpty then some rev2.reverse else none
    else none

def keyOf (before : List Char) : Option (List Char) := keyOfRev before.reverse

/-- The literal word translate. -/
def translateWord : List Char := (("translate")).data

/-- Strips a literal word from the front of a list, returning the remainder
when the list starts with the word. -/
def dropWord : List Char → List Char → Option (List Char)
  | [], l => some l
  | _ :: _, [] => none
  | c :: w, x :: l => if c = x then dropWord w l else none

/-- The tail of the pattern after the pipe: at most one space and then the
word translate. The greedy optional space prefers consuming a space; when
the input starts with a space but the space branch fails, the empty branch
cannot start with the letter t either, so the whole tail fails. Returns the
consumed characters and the remainder. -/
def matchTranslate (l : List Char) : Option (List Char × List Char) :=
  match l with
  | ' ' :: rest =>
    match dropWord translateWord rest with
    | some r => some (' ' :: translateWord, r)
    | none => none
  | _ =>
    match dropWord translateWord l with
    | some r => some (translateWord, r)
    | none => none

/-- A match of the fixed pattern anchored at the front of the list: an
opening quote, then the characters up to the first pipe must decompose as
key, closing quote, at most one space, and after the pipe at most one space
and the word translate. Returns the whole matched span, the key capture,
and the remainder of the list. -/
def matchAt (l : List Char) : Option (List Char × List Char × List Char) :=
  match l with
  | [] => none
  | q :: rest =>
    if isQuote q then
      (findPipe rest).bind fun p =>
        (keyOf p.1).bind fun key =>
          (matchTranslate p.2).map fun t => (q :: p.1 ++ ('|') :: t.1, key, t.2)
    else none

/-- TranslateFinder is_match: the text contains a match of the fixed pattern
at some position. -/
def is_match : List Char → Bool
  | [] => false
  | c :: rest => (matchAt (c :: rest)).isSome || is_match rest

/-- One token of the scan of a text: either a placeholder occurrence with
its whole span and key capture, or a single literal character outside every
occurrence. -/
inductive Token where
  | occ : List Char → List Char → Token
  | lit : Char → Token
  deriving DecidableEq

/-- The scan underlying find_iter and replace_all, with an explicit
recursion bound: at each position, if a match starts there it is emitted
and scanning resumes after it, otherwise the character is a literal. The
bound only serves termination; tokensGo_fuel shows any bound of at least
the length of the list gives the same result. -/
def tokensGo : Nat → List Char → List Token
  | 0, _ => []
  | _ + 1, [] => []
  | n + 1, c :: rest =>
    match matchAt (c :: rest) with
    | some (w, k, r) => Token.occ w k :: tokensGo n r
    | none => Token.lit c :: tokensGo n rest

/-- The left to right non-overlapping occurrence scan of a text. -/
def tokens (l : List Char) : List Token := tokensGo l.length l

/-- The capture closure of replace_with_string (src/main.rs lines 92-102):
resolve the key, and if the resolved value is a string take its raw
contents and set the did_replace flag, otherwise emit the whole match
verbatim; a none lookup result would fall back to the empty string without
setting the flag. Returns the emitted text and the flag contribution. -/
def capReplacement (map : Json) (whole key : List Char) : List Char × Bool :=
  match read_json_path map key with
  | some (Json.str s) => (s.data, true)
  | some _ => (whole, false)
  | none => ([], false)

/-- One step of the replace_all fold: a literal character is copied, an
occurrence is replaced by the closure output, and the did_replace flag
accumulates by or. -/
def tokenStep (map : Json) (acc : List Char × Bool) (t : Token) : List Char × Bool :=
  match t with
  | .lit c => (acc.1 ++ [c], acc.2)
  | .occ w k =>
    let r := capReplacement map w k
    (acc.1 ++ r.1, acc.2 || r.2)

/-- TranslateFinder replace_with_string (src/main.rs lines 90-109):
replace_all over the scanned occurrences with the capture closure, then
some of the rebuilt text when the did_replace flag was set, none
otherwise. -/
def replace_with_string (map : Json) (sample : List Char) : Option (List Char) :=
  let res := (tokens sample).foldl (tokenStep map) (([]), false)
  if res.2 then some res.1 else none

/-- Whether a key resolves to a JSON string value in the dictionary. -/
def resolvesToString (map : Json) (k : List Char) : Bool :=
  match read_json_path map k with
  | some (Json.str _) => true
  | _ => false

/-- The substitution rule of the specification for one token: an occurrence
whose key resolves to a JSON string becomes the raw contents of that
string, any other occurrence stays verbatim, and a literal character stays
itself. -/
def renderTok (map : Json) : Token → List Char
  | .lit c => [c]
  | .occ w k =>
    match read_json_path map k with
    | some (Json.str s) => s.data
    | _ => w

/-- Whether a token is an occurrence whose key resolves to a string. -/
def isStrTok (map : Json) : Token → Bool
  | .lit _ => false
  | .occ _ k => resolvesToString map k

/-- The whole span of text a token stands for in the input. -/
def Token.wholeText : Token → List Char
  | .occ w _ => w
  | .lit c => [c]

/-- Observable per-file events of the driver loop: a write of new content,
or the diagnostic line about a file without translations. -/
inductive Event where
  | write : List Char → Event
  | diag : Event
  deriving DecidableEq

/-- The inner dictionary loop of apply_translation (src/main.rs lines
52-65) for one file whose content was read once: for each dictionary in
order, if the fixed pattern matches the original content, apply
replace_with_string to that same original content and either write the
replacement (outside dry run) or emit the diagnostic; on the first
non-match the loop breaks, skipping that dictionary and all later ones. -/
def processFile (content : List Char) (dryRun : Bool) : List Json → List Event
  | [] => []
  | d :: ds =>
    if is_match content then
      (match replace_with_string d content with
       | some r => if dryRun then [] else [Event.write r]
       | none => [Event.diag]) ++ processFile content dryRun ds
    else []

/-! Lemmas about path resolution. -/

theorem splitDot_ne_nil (l : List Char) : splitDot l ≠ [] := by
  induction l with
  | nil => simp [splitDot]
  | cons c cs ih =>
    simp only [splitDot]
    rcases hcs : splitDot cs with _ | ⟨g, gs⟩
    · simp
    · by_cases hc : c = '.' <;> simp [hc]

theorem foldl_enumFrom_some (value : Json) :
    ∀ (l : List (List Char)) (n : Nat) (a : Json), n ≠ 0 →
      (List.enumFrom n l).foldl
        (fun acc f =>
          if f.1 = 0 then some (segIndex value f.2)
          else match acc with
            | none => none
            | some b => some (segIndex b f.2)) (some a)
      = some (l.foldl segIndex a) := by
  intro l
  induction l with
  | nil => intro n a _; rfl
  | cons s rest ih =>
    intro n a hn
    show (List.enumFrom (n + 1) rest).foldl _ (if n = 0 then _ else _) = _
    rw [if_neg hn]
    exact ih (n + 1) (segIndex a s) (Nat.succ_ne_zero n)

theorem read_json_path_eq (v : Json) (p : List Char) :
    read_json_path v p = some ((splitDot p).foldl segIndex v) := by
  unfold read_json_path
  rcases h : splitDot p with _ | ⟨g, gs⟩
  · exact absurd h (splitDot_ne_nil p)
  · have henum : (g :: gs).enum = (0, g) :: List.enumFrom 1 gs := rfl
    rw [henum, List.foldl_cons, List.foldl_cons]
    show (List.enumFrom 1 gs).foldl _ (if (0 : Nat) = 0 then _ else _) = _
    rw [if_pos rfl]
    exact foldl_enumFrom_some v gs 1 (segIndex v g) one_ne_zero

theorem read_json_path_isSome (v : Json) (p : List Char) :
    (read_json_path v p).isSome = true := by
  rw [read_json_path_eq]; rfl

/-! Lemmas about the matcher. -/

theorem isQuote_cases {c : Char} (h : isQuote c = true) : c = squote ∨ c = dquote := by
  unfold isQuote at h
  rcases Bool.or_eq_true_iff.mp h with h1 | h1
  · exact Or.inl (by simpa using h1)
  · exact Or.inr (by simpa using h1)

theorem isQuote_ne_pipe {c : Char} (h : isQuote c = true) : c ≠ '|' := by
  rcases isQuote_cases h with h1 | h1 <;> subst h1 <;> decide

theorem isQuote_space : isQuote (' ') = false := by decide

theorem findPipe_eq :
    ∀ (l b a : List Char), findPipe l = some (b, a) →
      l = b ++ ('|') :: a ∧ ('|') ∉ b := by
  intro l
  induction l with
  | nil => intro b a h; exact Option.noConfusion h
  | cons c rest ih =>
    intro b a h
    simp only [findPipe] at h
    by_cases hc : c = '|'
    · rw [if_pos hc] at h
      rcases Option.some.inj h with h'
      obtain ⟨hb, ha⟩ := Prod.mk.injEq .. ▸ h'
      subst hc; subst hb; subst ha
      exact ⟨rfl, List.not_mem_nil _⟩
    · rw [if_neg hc] at h
      rcases hrec : findPipe rest with _ | ⟨b', a'⟩
      · rw [hrec] at h; simp at h
      · rw [hrec] at h
        rcases Option.some.inj h with h'
        obtain ⟨hb, ha⟩ := Prod.mk.injEq .. ▸ h'
        obtain ⟨hl, hnm⟩ := ih b' a' hrec
        subst hb; subst ha; subst hl
        refine ⟨rfl, ?_⟩
        intro hmem
        rcases List.mem_cons.mp hmem with h1 | h1
        · exact hc h1.symm
        · exact hnm h1

theorem findPipe_complete :
    ∀ (b a : List Char), ('|') ∉ b → findPipe (b ++ ('|') :: a) = some (b, a) := by
  intro b
  induction b with
  | nil => intro a _; simp [findPipe]
  | cons c cs ih =>
    intro a hnm
    have hc : c ≠ '|' := fun h => hnm (h ▸ List.mem_cons_self c cs)
    have hcs : ('|') ∉ cs := fun h => hnm (List.mem_cons_of_mem c h)
    simp only [List.cons_append, findPipe, if_neg hc, List.append_eq]
    rw [ih a hcs]
    rfl

theorem dropWord_eq :
    ∀ (w l r : List Char), dropWord w l = some r → l = w ++ r := by
  intro w
  induction w with
  | nil => intro l r h; simpa [dropWord] using Option.some.inj h ▸ rfl
  | cons c w' ih =>
    intro l r h
    cases l with
    | nil => simp [dropWord] at h
    | cons x l' =>
      simp only [dropWord] at h
      by_cases hc : c = x
      · rw [if_pos hc] at h
        rw [List.cons_append, ← ih l' r h, hc]
      · rw [if_neg hc] at h; exact absurd h (by simp)

theorem dropWord_self : ∀ (w r : List Char), dropWord w (w ++ r) = some r := by
  intro w
  induction w with
  | nil => intro r; rfl
  | cons c w' ih => intro r; simp [dropWord, ih r]

theorem matchTranslate_cons_ne {c : Char} (rest : List Char) (hc : c ≠ ' ') :
    matchTranslate (c :: rest) =
      match dropWord translateWord (c :: rest) with
      | some r' => some (translateWord, r')
      | none => none := by
  unfold matchTranslate
  split
  · rename_i heq
    injection heq with h1 _
    exact absurd h1 hc
  · rfl

theorem matchTranslate_eq {l tw r : List Char} (h : matchTranslate l = some (tw, r)) :
    l = tw ++ r ∧ (tw = translateWord ∨ tw = (' ') :: translateWord) := by
  cases l with
  | nil =>
    have hnil : matchTranslate ([] : List Char) = none := rfl
    rw [hnil] at h; exact Option.noConfusion h
  | cons c rest =>
    by_cases hc : c = ' '
    · subst hc
      have hunf : matchTranslate ((' ') :: rest) =
          match dropWord translateWord rest with
          | some r' => some ((' ') :: translateWord, r')
          | none => none := rfl
      rw [hunf] at h
      rcases hdw : dropWord translateWord rest with _ | r'
      · rw [hdw] at h; exact Option.noConfusion h
      · rw [hdw] at h
        obtain ⟨htw, hr⟩ := Prod.mk.injEq .. ▸ Option.some.inj h
        subst htw; subst hr
        constructor
        · rw [List.cons_append, ← dropWord_eq _ _ _ hdw]
        · exact Or.inr rfl
    · rw [matchTranslate_cons_ne rest hc] at h
      rcases hdw : dropWord translateWord (c :: rest) with _ | r'
      · rw [hdw] at h; exact Option.noConfusion h
      · rw [hdw] at h
        obtain ⟨htw, hr⟩ := Prod.mk.injEq .. ▸ Option.some.inj h
        subst htw; subst hr
        exact ⟨dropWord_eq _ _ _ hdw, Or.inl rfl⟩

theorem keyOfRev_quote {c : Char} (rev : List Char) (hq : isQuote c = true) :
    keyOfRev (c :: rev) = (if rev.isEmpty = true then none else some rev.reverse) := by
  simp only [keyOfRev]
  rw [if_pos hq]

theorem keyOfRev_space_cons (c2 : Char) (rev2 : List Char) :
    keyOfRev ((' ') :: c2 :: rev2) =
      (if (isQuote c2 && !rev2.isEmpty) = true then some rev2.reverse else none) := by
  simp only [keyOfRev]
  simp [isQuote_space]

theorem keyOfRev_other {c : Char} (rev : List Char) (hq : isQuote c = false)
    (hsp : c ≠ ' ') : keyOfRev (c :: rev) = none := by
  simp only [keyOfRev]
  rw [if_neg (by rw [hq]; simp), if_neg hsp]

theorem keyOf_eq {b k : List Char} (h : keyOf b = some k) :
    ∃ q2 s1, isQuote q2 = true ∧ (s1 = [] ∨ s1 = [(' ')]) ∧
      b = k ++ q2 :: s1 ∧ k ≠ [] := by
  unfold keyOf at h
  rcases hrev : b.reverse with _ | ⟨c, rev⟩
  · rw [hrev] at h; exact Option.noConfusion h
  · rw [hrev] at h
    have hb : b = rev.reverse ++ [c] := by
      rw [← List.reverse_reverse b, hrev, List.reverse_cons]
    by_cases hq : isQuote c = true
    · rw [keyOfRev_quote rev hq] at h
      by_cases hre : rev.isEmpty = true
      · rw [if_pos hre] at h; exact Option.noConfusion h
      · rw [if_neg hre] at h
        have hk : rev.reverse = k := Option.some.inj h
        refine ⟨c, [], hq, Or.inl rfl, ?_, ?_⟩
        · rw [hb, hk]
        · rw [← hk]
          simp only [ne_eq, List.reverse_eq_nil_iff]
          intro hnil
          rw [hnil] at hre
          exact hre rfl
    · by_cases hsp : c = ' '
      · subst hsp
        rcases rev with _ | ⟨c2, rev2⟩
        · exact Option.noConfusion h
        · rw [keyOfRev_space_cons c2 rev2] at h
          by_cases hcond : (isQuote c2 && !rev2.isEmpty) = true
          · rw [if_pos hcond] at h
            have hk : rev2.reverse = k := Option.some.inj h
            obtain ⟨hq2, hne⟩ := Bool.and_eq_true_iff.mp hcond
            refine ⟨c2, [(' ')], hq2, Or.inr rfl, ?_, ?_⟩
            · rw [hb, List.reverse_cons, hk, List.append_assoc]
              rfl
            · rw [← hk]
              simp only [ne_eq, List.reverse_eq_nil_iff]
              intro hnil
              rw [hnil] at hne
              simp at hne
          · rw [if_neg hcond] at h; exact Option.noConfusion h
      · rw [keyOfRev_other rev (by simpa using hq) hsp] at h
        exact Option.noConfusion h

theorem keyOf_complete {k : List Char} {q2 : Char} {s1 : List Char}
    (hq : isQuote q2 = true) (hs1 : s1 = [] ∨ s1 = [(' ')]) (hk : k ≠ []) :
    keyOf (k ++ q2 :: s1) = some k := by
  have hkre : k.reverse.isEmpty = false := by
    rcases hre : k.reverse.isEmpty with _ | _
    · rfl
    · exact absurd (List.reverse_eq_nil_iff.mp (List.isEmpty_iff.mp hre)) hk
  unfold keyOf
  rcases hs1 with hs1 | hs1 <;> subst hs1
  · have hrev : (k ++ [q2]).reverse = q2 :: k.reverse := by
      rw [List.reverse_append]; rfl
    rw [hrev, keyOfRev_quote _ hq, hkre]
    simp
  · have hrev : (k ++ q2 :: [(' ')]).reverse = (' ') :: q2 :: k.reverse := by
      rw [List.reverse_append]; rfl
    rw [hrev, keyOfRev_space_cons, hq, hkre]
    simp

theorem matchTranslate_word (post : List Char) :
    matchTranslate (translateWord ++ post) = some (translateWord, post) := by
  have h : translateWord ++ post = 't' :: (((("ranslate")).data) ++ post) := rfl
  rw [h, matchTranslate_cons_ne _ (by decide)]
  have h2 : dropWord translateWord ('t' :: (((("ranslate")).data) ++ post)) = some post := by
    show dropWord translateWord (translateWord ++ post) = some post
    exact dropWord_self _ _
  rw [h2]

theorem matchTranslate_space_word (post : List Char) :
    matchTranslate ((' ') :: (translateWord ++ post)) = some ((' ') :: translateWord, post) := by
  have hunf : matchTranslate ((' ') :: (translateWord ++ post)) =
      match dropWord translateWord (translateWord ++ post) with
      | some r' => some ((' ') :: translateWord, r')
      | none => none := rfl
  rw [hunf, dropWord_self]

theorem matchAt_eq {l w k r : List Char} (h : matchAt l = some (w, k, r)) :
    ∃ q1 q2 s1 s2, isQuote q1 = true ∧ isQuote q2 = true ∧ k ≠ [] ∧ ('|') ∉ k ∧
      (s1 = [] ∨ s1 = [(' ')]) ∧ (s2 = [] ∨ s2 = [(' ')]) ∧
      w = [q1] ++ k ++ [q2] ++ s1 ++ [('|')] ++ s2 ++ translateWord ∧
      l = w ++ r := by
  cases l with
  | nil => exact Option.noConfusion h
  | cons q rest =>
    replace h : (if isQuote q = true then
        (findPipe rest).bind fun p =>
          (keyOf p.1).bind fun key =>
            (matchTranslate p.2).map fun t => (q :: p.1 ++ ('|') :: t.1, key, t.2)
      else none) = some (w, k, r) := h
    by_cases hq : isQuote q = true
    · rw [if_pos hq] at h
      rcases hfp : findPipe rest with _ | ⟨bef, aft⟩ <;> rw [hfp] at h
      · exact Option.noConfusion h
      simp only [Option.some_bind] at h
      rcases hko : keyOf bef with _ | key' <;> rw [hko] at h
      · exact Option.noConfusion h
      simp only [Option.some_bind] at h
      rcases hmt : matchTranslate aft with _ | ⟨tw, rest2⟩ <;> rw [hmt] at h
      · exact Option.noConfusion h
      simp only [Option.map_some'] at h
      obtain ⟨hw, hk', hr⟩ := Prod.mk.injEq .. ▸ Prod.mk.injEq .. ▸ Option.some.inj h
      obtain ⟨hrest, hpf⟩ := findPipe_eq rest bef aft hfp
      obtain ⟨q2, s1, hq2, hs1, hbef, hkne⟩ := keyOf_eq hko
      obtain ⟨haft, htw⟩ := matchTranslate_eq hmt
      subst hk'
      have hknp : ('|') ∉ key' := by
        intro hmem
        exact hpf (hbef ▸ List.mem_append_left _ hmem)
      have hs2 : ∃ s2, (s2 = [] ∨ s2 = [(' ')]) ∧ tw = s2 ++ translateWord := by
        rcases htw with htw | htw
        · exact ⟨[], Or.inl rfl, by rw [htw]; rfl⟩
        · exact ⟨[(' ')], Or.inr rfl, by rw [htw]; rfl⟩
      obtain ⟨s2, hs2p, htw2⟩ := hs2
      refine ⟨q, q2, s1, s2, hq, hq2, hkne, hknp, hs1, hs2p, ?_, ?_⟩
      · rw [← hw, hbef, htw2]
        simp [List.append_assoc]
      · rw [← hw, ← hr, hrest, hbef, haft, htw2]
        simp [List.append_assoc]
    · rw [if_neg hq] at h; exact Option.noConfusion h

theorem matchAt_complete {q1 q2 : Char} {k s1 s2 post : List Char}
    (hq1 : isQuote q1 = true) (hq2 : isQuote q2 = true) (hk : k ≠ [])
    (hknp : ('|') ∉ k) (hs1 : s1 = [] ∨ s1 = [(' ')]) (hs2 : s2 = [] ∨ s2 = [(' ')]) :
    matchAt ([q1] ++ k ++ [q2] ++ s1 ++ [('|')] ++ s2 ++ translateWord ++ post) =
      some ([q1] ++ k ++ [q2] ++ s1 ++ [('|')] ++ s2 ++ translateWord, k, post) := by
  have hb0 : ('|') ∉ k ++ q2 :: s1 := by
    intro hmem
    rcases List.mem_append.mp hmem with hmem | hmem
    · exact hknp hmem
    · rcases List.mem_cons.mp hmem with hmem | hmem
      · exact isQuote_ne_pipe hq2 hmem.symm
      · rcases hs1 with h1 | h1 <;> rw [h1] at hmem <;> simp at hmem
  have hshape : [q1] ++ k ++ [q2] ++ s1 ++ [('|')] ++ s2 ++ translateWord ++ post =
      q1 :: ((k ++ q2 :: s1) ++ ('|') :: (s2 ++ translateWord ++ post)) := by
    simp [List.append_assoc]
  rw [hshape]
  show (if isQuote q1 = true then
      (findPipe ((k ++ q2 :: s1) ++ ('|') :: (s2 ++ translateWord ++ post))).bind fun p =>
        (keyOf p.1).bind fun key =>
          (matchTranslate p.2).map fun t => (q1 :: p.1 ++ ('|') :: t.1, key, t.2)
    else none) = _
  rw [if_pos hq1, findPipe_complete _ _ hb0]
  simp only [Option.some_bind]
  rw [keyOf_complete hq2 hs1 hk]
  simp only [Option.some_bind]
  have hmt : matchTranslate (s2 ++ translateWord ++ post) =
      some (s2 ++ translateWord, post) := by
    rcases hs2 with h2 | h2 <;> subst h2
    · simpa using matchTranslate_word post
    · simpa [List.append_assoc] using matchTranslate_space_word post
  rw [hmt]
  simp [List.append_assoc]

theorem matchAt_length {l w k r : List Char} (h : matchAt l = some (w, k, r)) :
    r.length < l.length := by
  obtain ⟨q1, _, _, _, _, _, _, _, _, _, hw, hl⟩ := matchAt_eq h
  rw [hl, List.length_append]
  have : 0 < w.length := by rw [hw]; simp
  omega

/-! Lemmas about the occurrence scan and the replacer. -/

theorem tokensGo_fuel :
    ∀ (n m : Nat) (l : List Char), l.length ≤ n → l.length ≤ m →
      tokensGo n l = tokensGo m l := by
  intro n
  induction n with
  | zero =>
    intro m l hn _
    have hl : l = [] := List.length_eq_zero.mp (Nat.le_zero.mp hn)
    subst hl
    cases m <;> rfl
  | succ n ih =>
    intro m l hn hm
    cases l with
    | nil => cases m <;> rfl
    | cons c rest =>
      cases m with
      | zero => simp at hm
      | succ m' =>
        simp only [tokensGo]
        rcases hma : matchAt (c :: rest) with _ | ⟨w, k, r⟩
        · simp only [hma]
          have h1 : rest.length ≤ n := by simpa using hn
          have h2 : rest.length ≤ m' := by simpa using hm
          rw [ih m' rest h1 h2]
        · simp only [hma]
          have hr : r.length < rest.length + 1 := by
            simpa using matchAt_length hma
          have h1 : r.length ≤ n := by simp at hn; omega
          have h2 : r.length ≤ m' := by simp at hm; omega
          rw [ih m' r h1 h2]

theorem tokens_nil : tokens [] = [] := rfl

theorem tokens_cons_match {c : Char} {rest w k r : List Char}
    (h : matchAt (c :: rest) = some (w, k, r)) :
    tokens (c :: rest) = Token.occ w k :: tokens r := by
  unfold tokens
  simp only [List.length_cons, tokensGo, h]
  have hr : r.length < rest.length + 1 := by simpa using matchAt_length h
  rw [tokensGo_fuel rest.length r.length r (by omega) (le_refl _)]

theorem tokens_cons_nomatch {c : Char} {rest : List Char}
    (h : matchAt (c :: rest) = none) :
    tokens (c :: rest) = Token.lit c :: tokens rest := by
  unfold tokens
  simp only [List.length_cons, tokensGo, h]

theorem tokens_join (l : List Char) : ((tokens l).map Token.wholeText).flatten = l := by
  have H : ∀ (n : Nat) (l : List Char), l.length ≤ n →
      ((tokens l).map Token.wholeText).flatten = l := by
    intro n
    induction n with
    | zero =>
      intro l hl
      have h0 : l = [] := List.length_eq_zero.mp (Nat.le_zero.mp hl)
      subst h0
      rfl
    | succ n ih =>
      intro l hl
      cases l with
      | nil => rfl
      | cons c rest =>
        rcases hma : matchAt (c :: rest) with _ | ⟨w, k, r⟩
        · rw [tokens_cons_nomatch hma]
          have h1 : rest.length ≤ n := by simpa using hl
          simp [Token.wholeText, ih rest h1]
        · rw [tokens_cons_match hma]
          have hr : r.length < rest.length + 1 := by simpa using matchAt_length hma
          have h1 : r.length ≤ n := by simp at hl; omega
          obtain ⟨q1, q2, s1, s2, _, _, _, _, _, _, hw, hlw⟩ := matchAt_eq hma
          simp only [List.map_cons, List.flatten_cons, Token.wholeText]
          rw [ih r h1]
          exact hlw.symm
  exact H l.length l (le_refl _)

theorem is_match_suffix (pre l0 : List Char) (h : (matchAt l0).isSome = true) :
    is_match (pre ++ l0) = true := by
  induction pre with
  | nil =>
    cases l0 with
    | nil => exact absurd h (by rw [show matchAt [] = none from rfl]; simp)
    | cons c rest =>
      show ((matchAt (c :: rest)).isSome || is_match rest) = true
      rw [h]
      rfl
  | cons p pre ih =>
    show ((matchAt (p :: (pre ++ l0))).isSome || is_match (pre ++ l0)) = true
    rw [ih]
    simp

theorem mem_occ_is_match {w k : List Char} (l : List Char)
    (h : Token.occ w k ∈ tokens l) : is_match l = true := by
  have H : ∀ (n : Nat) (l : List Char), l.length ≤ n →
      Token.occ w k ∈ tokens l → is_match l = true := by
    intro n
    induction n with
    | zero =>
      intro l hl hm
      have h0 : l = [] := List.length_eq_zero.mp (Nat.le_zero.mp hl)
      subst h0
      simp [tokens_nil] at hm
    | succ n ih =>
      intro l hl hm
      cases l with
      | nil => simp [tokens_nil] at hm
      | cons c rest =>
        rcases hma : matchAt (c :: rest) with _ | ⟨w', k', r⟩
        · rw [tokens_cons_nomatch hma] at hm
          have h1 : rest.length ≤ n := by simpa using hl
          rcases List.mem_cons.mp hm with hm | hm
          · exact absurd hm (by simp)
          · show ((matchAt (c :: rest)).isSome || is_match rest) = true
            rw [ih rest h1 hm]
            simp
        · show ((matchAt (c :: rest)).isSome || is_match rest) = true
          rw [hma]
          rfl
  exact H l.length l (le_refl _) h

theorem capReplacement_eq (m : Json) (w k : List Char) :
    capReplacement m w k = (renderTok m (Token.occ w k), resolvesToString m k) := by
  simp only [capReplacement, renderTok, resolvesToString]
  rcases h : read_json_path m k with _ | f
  · exact absurd h (by
      intro hcontra
      have hs := read_json_path_isSome m k
      rw [hcontra] at hs
      exact Bool.noConfusion hs)
  · cases f <;> rfl

theorem foldl_tokenStep (m : Json) :
    ∀ (ts : List Token) (acc : List Char × Bool),
      ts.foldl (tokenStep m) acc =
        (acc.1 ++ ((ts.map (renderTok m))).flatten, acc.2 || ts.any (isStrTok m)) := by
  intro ts
  induction ts with
  | nil => intro acc; simp
  | cons t ts ih =>
    intro acc
    rw [List.foldl_cons, ih]
    cases t with
    | lit c => simp [tokenStep, renderTok, isStrTok]
    | occ w k =>
      simp [tokenStep, isStrTok, capReplacement_eq m w k, List.append_assoc,
        Bool.or_assoc]

theorem rws_eq (m : Json) (l : List Char) :
    replace_with_string m l =
      (if (tokens l).any (isStrTok m) = true
       then some (((tokens l).map (renderTok m)).flatten)
       else none) := by
  unfold replace_with_string
  rw [foldl_tokenStep]
  simp

theorem any_isStrTok_iff (m : Json) (l : List Char) :
    (tokens l).any (isStrTok m) = true ↔
      ∃ w k, Token.occ w k ∈ tokens l ∧ resolvesToString m k = true := by
  rw [List.any_eq_true]
  constructor
  · rintro ⟨t, htmem, hts⟩
    cases t with
    | lit c => simp [isStrTok] at hts
    | occ w k => exact ⟨w, k, htmem, by simpa [isStrTok] using hts⟩
  · rintro ⟨w, k, hmem, hres⟩
    exact ⟨Token.occ w k, hmem, by simpa [isStrTok] using hres⟩

theorem all_not_imp_any_false (m : Json) (l : List Char)
    (h : ((tokens l).all fun t => !isStrTok m t) = true) :
    (tokens l).any (isStrTok m) = false := by
  rcases hany : (tokens l).any (isStrTok m) with _ | _
  · rfl
  · obtain ⟨t, hm, ht⟩ := List.any_eq_true.mp hany
    have h2 := List.all_eq_true.mp h t hm
    rw [ht] at h2
    simp at h2

theorem renderTok_of_not_string (m : Json) (w k : List Char)
    (h : resolvesToString m k = false) : renderTok m (Token.occ w k) = w := by
  simp only [renderTok]
  unfold resolvesToString at h
  rcases hr : read_json_path m k with _ | f
  · rfl
  · rw [hr] at h
    cases f
    case str s => simp at h
    all_goals rfl

/-- Containment of the placeholder pattern as the code implements it: a key
enclosed in quote-class characters, with no pipe in the key, at most one
space before the pipe and at most one space after it, then the word
translate. -/
def CodeOccurrence (l : List Char) : Prop :=
  ∃ pre q1 key q2 s1 s2 post,
    isQuote q1 = true ∧ isQuote q2 = true ∧ key ≠ [] ∧ ('|') ∉ key ∧
    (s1 = [] ∨ s1 = [(' ')]) ∧ (s2 = [] ∨ s2 = [(' ')]) ∧
    l = pre ++ [q1] ++ key ++ [q2] ++ s1 ++ [('|')] ++ s2 ++ translateWord ++ post

/-- Containment of the placeholder pattern as the specification words it: a
key enclosed in single or double quotes containing no pipe character,
optionally padded with whitespace, followed by a pipe, optional whitespace,
and the literal word translate. -/
def SpecOccurrence (l : List Char) : Prop :=
  ∃ pre q1 key q2 ws1 ws2 post,
    isQuote q1 = true ∧ isQuote q2 = true ∧ key ≠ [] ∧ ('|') ∉ key ∧
    (∀ c ∈ ws1, c.isWhitespace = true) ∧ (∀ c ∈ ws2, c.isWhitespace = true) ∧
    l = pre ++ [q1] ++ key ++ [q2] ++ ws1 ++ [('|')] ++ ws2 ++ translateWord ++ post

theorem is_match_iff_codeOccurrence (l : List Char) :
    is_match l = true ↔ CodeOccurrence l := by
  constructor
  · have H : ∀ (n : Nat) (l : List Char), l.length ≤ n → is_match l = true →
        CodeOccurrence l := by
      intro n
      induction n with
      | zero =>
        intro l hl him
        have h0 : l = [] := List.length_eq_zero.mp (Nat.le_zero.mp hl)
        subst h0
        exact Bool.noConfusion him
      | succ n ih =>
        intro l hl him
        cases l with
        | nil => exact Bool.noConfusion him
        | cons c rest =>
          replace him : ((matchAt (c :: rest)).isSome || is_match rest) = true := him
          rcases Bool.or_eq_true_iff.mp him with hm | hm
          · rcases hma : matchAt (c :: rest) with _ | ⟨w, k, r⟩
            · rw [hma] at hm; exact Bool.noConfusion hm
            · obtain ⟨q1, q2, s1, s2, h1, h2, h3, h4, h5, h6, hw, hlw⟩ :=
                matchAt_eq hma
              refine ⟨[], q1, k, q2, s1, s2, r, h1, h2, h3, h4, h5, h6, ?_⟩
              rw [hlw, hw]
              simp [List.append_assoc]
          · have h1 : rest.length ≤ n := by simpa using hl
            obtain ⟨pre, q1, key, q2, s1, s2, post, g1, g2, g3, g4, g5, g6, heq⟩ :=
              ih rest h1 hm
            refine ⟨c :: pre, q1, key, q2, s1, s2, post, g1, g2, g3, g4, g5, g6, ?_⟩
            rw [heq]
            simp [List.append_assoc]
    exact fun him => H l.length l (le_refl _) him
  · rintro ⟨pre, q1, key, q2, s1, s2, post, h1, h2, h3, h4, h5, h6, heq⟩
    have hsome : (matchAt ([q1] ++ key ++ [q2] ++ s1 ++ [('|')] ++ s2 ++
        translateWord ++ post)).isSome = true := by
      rw [matchAt_complete h1 h2 h3 h4 h5 h6]
      rfl
    have hsfx := is_match_suffix pre _ hsome
    rw [heq]
    calc is_match (pre ++ [q1] ++ key ++ [q2] ++ s1 ++ [('|')] ++ s2 ++
            translateWord ++ post)
        = is_match (pre ++ ([q1] ++ key ++ [q2] ++ s1 ++ [('|')] ++ s2 ++
            translateWord ++ post)) := by simp [List.append_assoc]
      _ = true := hsfx

theorem rws_some_eq {m : Json} {l out : List Char}
    (h : replace_with_string m l = some out) :
    out = ((tokens l).map (renderTok m)).flatten := by
  rw [rws_eq] at h
  rcases hany : (tokens l).any (isStrTok m) with _ | _ <;> rw [hany] at h <;> simp at h
  exact h.symm

theorem rws_none_of_all {m : Json} {l : List Char}
    (h : ((tokens l).all fun t => !isStrTok m t) = true) :
    replace_with_string m l = none := by
  rw [rws_eq, all_not_imp_any_false m l h]
  simp

/-! Concrete dictionaries and texts used by the witnesses. -/

def sampleTree : Json :=
  Json.obj [((("array")), Json.arr [Json.obj [((("name")), Json.str (("Embedded 0")))]])]

def greetDict : Json := Json.obj [((("greeting")), Json.str (("hello, world")))]

def greetText : List Char :=
  [(' '), squote] ++ (("greeting")).data ++ [squote] ++ ((" | translate")).data

def greetWhole : List Char :=
  [squote] ++ (("greeting")).data ++ [squote] ++ ((" | translate")).data

def abDict : Json := Json.obj [((("a")), Json.str (("X")))]

def abWhole2 : List Char :=
  [squote] ++ (("b")).data ++ [squote] ++ ((" | translate")).data

def abText : List Char :=
  [squote] ++ (("a")).data ++ [squote] ++ ((" | translate ")).data ++ abWhole2

def abOut : List Char := (("X ")).data ++ abWhole2

def missDict : Json := Json.obj []

def missText : List Char :=
  [squote] ++ (("missing.key")).data ++ [squote] ++ ((" | translate")).data

def c6Dict : Json := Json.obj [((("k")), Json.str (("v")))]

def c6Text : List Char :=
  [squote] ++ (("k")).data ++ [squote] ++ ((" | translate")).data

def c10Dict : Json := Json.obj [((("key")), Json.str (("hello")))]

def c10Text (q1 q2 : Char) : List Char :=
  [q1] ++ (("key")).data ++ [q2] ++ ((" | translate")).data

def c4CexText : List Char :=
  [squote, ('k'), squote, (' '), (' '), ('|'), (' ')] ++ translateWord

/-! The claims. -/

/-- C1: substitute returns some text exactly when at least one scanned
placeholder occurrence resolves to a JSON string value; the returned text
is the full substitution in which every occurrence whose key resolves to a
string is replaced by the raw contents of that string; and when no
occurrence resolves to a string the result is none. -/
theorem c1_substitute_some_iff (m : Json) (l : List Char) :
    ((replace_with_string m l).isSome = true ↔
      ∃ w k, Token.occ w k ∈ tokens l ∧ resolvesToString m k = true) ∧
    (∀ out, replace_with_string m l = some out →
      out = ((tokens l).map (renderTok m)).flatten) ∧
    (((tokens l).all fun t => !isStrTok m t) = true →
      replace_with_string m l = none) := by
  refine ⟨?_, ?_, ?_⟩
  · rw [rws_eq, ← any_isStrTok_iff m l]
    rcases hany : (tokens l).any (isStrTok m) with _ | _ <;> simp [hany]
  · intro out hout
    exact rws_some_eq hout
  · exact rws_none_of_all

/-- C1 witness: the greeting dictionary resolves the occurrence of the
greeting placeholder, the substituted text is the rendered token list, and
the empty dictionary resolves nothing and yields none. -/
theorem c1_witness :
    (replace_with_string greetDict greetText).isSome = true ∧
    ((" hello, world")).data = ((tokens greetText).map (renderTok greetDict)).flatten ∧
    replace_with_string (Json.obj []) greetText = none :=
  ⟨(c1_substitute_some_iff greetDict greetText).1.mpr
      ⟨greetWhole, (("greeting")).data, by decide, by decide⟩,
   (c1_substitute_some_iff greetDict greetText).2.1 ((" hello, world")).data (by decide),
   (c1_substitute_some_iff (Json.obj []) greetText).2.2 (by decide)⟩

/-- C2: an occurrence whose key is absent or resolves to a non-string value
appears byte for byte in the input and in any substituted output, and when
every occurrence is unresolvable the result is none, so such an occurrence
never makes the result some on its own. -/
theorem c2_unresolved_verbatim (m : Json) (l w k : List Char)
    (hmem : Token.occ w k ∈ tokens l) (hres : resolvesToString m k = false) :
    (∃ pre post, l = pre ++ w ++ post) ∧
    (∀ out, replace_with_string m l = some out → ∃ pre post, out = pre ++ w ++ post) ∧
    (((tokens l).all fun t => !isStrTok m t) = true →
      replace_with_string m l = none) := by
  obtain ⟨ts1, ts2, hts⟩ := List.append_of_mem hmem
  refine ⟨?_, ?_, rws_none_of_all⟩
  · refine ⟨((ts1.map Token.wholeText)).flatten, ((ts2.map Token.wholeText)).flatten, ?_⟩
    conv_lhs => rw [← tokens_join l]
    rw [hts]
    simp [Token.wholeText, List.append_assoc]
  · intro out hout
    refine ⟨((ts1.map (renderTok m))).flatten, ((ts2.map (renderTok m))).flatten, ?_⟩
    rw [rws_some_eq hout, hts]
    simp [renderTok_of_not_string m w k hres, List.append_assoc]

/-- C2 witness: with one resolvable and one unresolvable occurrence, the
unresolvable occurrence appears verbatim in the input and in the
substituted output. -/
theorem c2_witness :
    (∃ pre post, abText = pre ++ abWhole2 ++ post) ∧
    (∃ pre post, abOut = pre ++ abWhole2 ++ post) :=
  ⟨(c2_unresolved_verbatim abDict abText abWhole2 (("b")).data
      (by decide) (by decide)).1,
   (c2_unresolved_verbatim abDict abText abWhole2 (("b")).data
      (by decide) (by decide)).2.1 abOut (by decide)⟩

/-- C3: path resolution always structurally succeeds and returns the fold of
the segment indexing over the split path; indexing null yields null again,
so a null is carried forward; and an absent field, an out of range index,
or indexing a non-object or non-array value all yield null. -/
theorem c3_resolution_total (v : Json) (p : List Char) :
    read_json_path v p = some ((splitDot p).foldl segIndex v) ∧
    (∀ s, segIndex Json.null s = Json.null) ∧
    (∀ fields k, ((fields.find? fun q => q.1 == k)) = none →
      Json.indexStr (Json.obj fields) k = Json.null) ∧
    (∀ xs i, xs.length ≤ i → Json.indexNat (Json.arr xs) i = Json.null) ∧
    (∀ w k, (∀ fields, w ≠ Json.obj fields) → Json.indexStr w k = Json.null) ∧
    (∀ w i, (∀ xs, w ≠ Json.arr xs) → Json.indexNat w i = Json.null) := by
  refine ⟨read_json_path_eq v p, ?_, ?_, ?_, ?_, ?_⟩
  · intro s
    rcases hp : parseUsize s with _ | i <;> simp [segIndex, hp, Json.indexNat, Json.indexStr]
  · intro fields k h
    simp [Json.indexStr, h]
  · intro xs i h
    simp [Json.indexNat, List.getD, List.getElem?_eq_none h]
  · intro w k h
    cases w with
    | obj fields => exact absurd rfl (h fields)
    | null => rfl
    | bool b => rfl
    | num n => rfl
    | str s => rfl
    | arr xs => rfl
  · intro w i h
    cases w with
    | arr xs => exact absurd rfl (h xs)
    | null => rfl
    | bool b => rfl
    | num n => rfl
    | str s => rfl
    | obj fs => rfl

/-- C3 witness: the resolution equation at a concrete tree and path, a null
carried forward, and the null results of an absent field, an out of range
index, and wrong-shape indexing. -/
theorem c3_witness :
    read_json_path Json.null (("a.b")).data =
      some ((splitDot (("a.b")).data).foldl segIndex Json.null) ∧
    segIndex Json.null (("x")).data = Json.null ∧
    Json.indexStr (Json.obj []) (("k")) = Json.null ∧
    Json.indexNat (Json.arr []) 5 = Json.null ∧
    Json.indexStr (Json.str (("s"))) (("k")) = Json.null ∧
    Json.indexNat (Json.bool true) 0 = Json.null :=
  ⟨(c3_resolution_total Json.null (("a.b")).data).1,
   (c3_resolution_total Json.null []).2.1 (("x")).data,
   (c3_resolution_total Json.null []).2.2.1 [] (("k")) rfl,
   (c3_resolution_total Json.null []).2.2.2.1 [] 5 (by decide),
   (c3_resolution_total Json.null []).2.2.2.2.1 (Json.str (("s"))) (("k"))
     (fun fields hctr => Json.noConfusion hctr),
   (c3_resolution_total Json.null []).2.2.2.2.2 (Json.bool true) 0
     (fun xs hctr => Json.noConfusion hctr)⟩

/-- C4 (amended): is_match is true exactly when the text contains a span of
a key in quote-class characters with no pipe, at most one space, a pipe, at
most one space, and the word translate; and the capture of any match is the
raw key text between the two quotes. The spec says whitespace padding where
the code accepts at most a single space on each side of the pipe. -/
theorem c4_match_characterization (l : List Char) :
    (is_match l = true ↔ CodeOccurrence l) ∧
    (∀ w k r, matchAt l = some (w, k, r) →
      ∃ q1 q2 s1 s2, isQuote q1 = true ∧ isQuote q2 = true ∧
        (s1 = [] ∨ s1 = [(' ')]) ∧ (s2 = [] ∨ s2 = [(' ')]) ∧
        w = [q1] ++ k ++ [q2] ++ s1 ++ [('|')] ++ s2 ++ translateWord) := by
  refine ⟨is_match_iff_codeOccurrence l, ?_⟩
  intro w k r h
  obtain ⟨q1, q2, s1, s2, g1, g2, _, _, g5, g6, hw, _⟩ := matchAt_eq h
  exact ⟨q1, q2, s1, s2, g1, g2, g5, g6, hw⟩

/-- C4 counterexample: a text containing the spec-worded placeholder whose
whitespace padding before the pipe is two spaces; the code regex does not
match it, refuting the claimed equivalence of is_match with the spec-worded
pattern. -/
theorem c4_counterexample : SpecOccurrence c4CexText ∧ is_match c4CexText = false := by
  constructor
  · exact ⟨[], squote, [('k')], squote, [(' '), (' ')], [(' ')], [],
      by decide, by decide, by simp, by decide, by decide, by decide, by decide⟩
  · decide

/-- C4 witness: a concrete text accepted by the matcher contains the code
pattern. -/
theorem c4_witness : CodeOccurrence missText :=
  (c4_match_characterization missText).1.mp (by decide)

/-- C5: a segment that parses as a non-negative integer indexes the running
value as an array position, any other segment indexes it as an object
field, and the mixed path resolves the sample tree to the embedded
string. -/
theorem c5_segment_rule (v : Json) (seg : List Char) :
    (∀ i, parseUsize seg = some i → segIndex v seg = v.indexNat i) ∧
    (parseUsize seg = none → segIndex v seg = v.indexStr (String.mk seg)) ∧
    read_json_path sampleTree (("array.0.name")).data =
      some (Json.str (("Embedded 0"))) := by
  refine ⟨?_, ?_, ?_⟩
  · intro i hi
    simp [segIndex, hi]
  · intro hn
    simp [segIndex, hn]
  · rw [read_json_path_eq]
    rfl

/-- C5 witness: the numeric segment rule at index zero and the field
segment rule at a concrete name. -/
theorem c5_witness :
    segIndex (Json.arr [Json.str (("y"))]) (("0")).data =
      (Json.arr [Json.str (("y"))]).indexNat 0 ∧
    segIndex (Json.obj []) (("name")).data =
      (Json.obj []).indexStr (String.mk (("name")).data) :=
  ⟨(c5_segment_rule (Json.arr [Json.str (("y"))]) (("0")).data).1 0 (by decide),
   (c5_segment_rule (Json.obj []) (("name")).data).2.1 (by decide)⟩

/-- C6: every write of the per-file loop carries a substitution of the
original content by one of the dictionaries; when the fixed pattern does
not match the content the loop emits nothing, skipping the dictionary and
all later ones; and when it does match, the events of a dictionary list
are those of its parts in order, so one dictionary never observes the
substitution of a previous one. -/
theorem c6_driver (content : List Char) (dryRun : Bool) (ds : List Json) :
    (∀ r, Event.write r ∈ processFile content dryRun ds →
      ∃ d ∈ ds, replace_with_string d content = some r) ∧
    (is_match content = false → processFile content dryRun ds = []) ∧
    (∀ ds2, is_match content = true →
      processFile content dryRun (ds ++ ds2) =
        processFile content dryRun ds ++ processFile content dryRun ds2) := by
  refine ⟨?_, ?_, ?_⟩
  · induction ds with
    | nil => intro r hr; simp [processFile] at hr
    | cons d ds ih =>
      intro r hr
      simp only [processFile] at hr
      by_cases him : is_match content = true
      · rw [if_pos him] at hr
        rcases List.mem_append.mp hr with hr | hr
        · rcases hrws : replace_with_string d content with _ | rr <;> rw [hrws] at hr
          · simp at hr
          · cases dryRun with
            | true => simp at hr
            | false =>
              have : r = rr := by simpa using hr
              subst this
              exact ⟨d, List.mem_cons_self d ds, hrws⟩
        · obtain ⟨d', hd', hrd'⟩ := ih r hr
          exact ⟨d', List.mem_cons_of_mem d hd', hrd'⟩
      · rw [if_neg him] at hr
        simp at hr
  · intro hfalse
    cases ds with
    | nil => rfl
    | cons d ds => simp [processFile, hfalse]
  · intro ds2 htrue
    induction ds with
    | nil => simp [processFile]
    | cons d ds ih => simp [processFile, htrue, ih, List.append_assoc]

/-- C6 witness: a concrete write event comes from a dictionary
substituting the original content, and a non-matching content yields no
events at all. -/
theorem c6_witness :
    (∃ d ∈ [c6Dict], replace_with_string d c6Text = some ((("v")).data)) ∧
    processFile ((("plain")).data) false [c6Dict] = [] :=
  ⟨(c6_driver c6Text false [c6Dict]).1 ((("v")).data) (by decide),
   (c6_driver ((("plain")).data) false [c6Dict]).2.1 (by decide)⟩

/-- C7: on a text none of whose occurrences resolves to a string the
substitution reports the text unmodified, and running it again on that same
unmodified text again returns none. -/
theorem c7_second_run_noop (m : Json) (l : List Char)
    (h : ((tokens l).all fun t => !isStrTok m t) = true) :
    (replace_with_string m l).getD l = l ∧
    replace_with_string m ((replace_with_string m l).getD l) = none := by
  have hnone := rws_none_of_all h
  rw [hnone]
  exact ⟨rfl, hnone⟩

/-- C7 witness: a missing key against the empty dictionary resolves to
null, so both runs report the text unmodified. -/
theorem c7_witness :
    (replace_with_string missDict missText).getD missText = missText ∧
    replace_with_string missDict
      ((replace_with_string missDict missText).getD missText) = none :=
  c7_second_run_noop missDict missText (by decide)

/-- C8: read_json_path always returns some value, so the empty-string
fallback of the capture closure is never taken: every emitted replacement
is either the raw contents of a resolved string or the occurrence itself,
never the empty string from a failed lookup. -/
theorem c8_lookup_always_some :
    (∀ v p, (read_json_path v p).isSome = true) ∧
    (∀ (m : Json) (w k : List Char),
      (∃ s, read_json_path m k = some (Json.str s) ∧
        capReplacement m w k = (s.data, true)) ∨
      (∃ f, read_json_path m k = some f ∧ (∀ s, f ≠ Json.str s) ∧
        capReplacement m w k = (w, false))) := by
  refine ⟨read_json_path_isSome, ?_⟩
  intro m w k
  have hcap := capReplacement_eq m w k
  rcases h : read_json_path m k with _ | f
  · exact absurd h (by
      intro hc
      have hs := read_json_path_isSome m k
      rw [hc] at hs
      exact Bool.noConfusion hs)
  · cases f with
    | str s =>
      left
      refine ⟨s, rfl, ?_⟩
      unfold capReplacement
      rw [h]
    | null =>
      right
      refine ⟨Json.null, rfl, fun s hs => Json.noConfusion hs, ?_⟩
      unfold capReplacement
      rw [h]
    | bool b =>
      right
      refine ⟨Json.bool b, rfl, fun s hs => Json.noConfusion hs, ?_⟩
      unfold capReplacement
      rw [h]
    | num n =>
      right
      refine ⟨Json.num n, rfl, fun s hs => Json.noConfusion hs, ?_⟩
      unfold capReplacement
      rw [h]
    | arr xs =>
      right
      refine ⟨Json.arr xs, rfl, fun s hs => Json.noConfusion hs, ?_⟩
      unfold capReplacement
      rw [h]
    | obj fs =>
      right
      refine ⟨Json.obj fs, rfl, fun s hs => Json.noConfusion hs, ?_⟩
      unfold capReplacement
      rw [h]

/-- C8 witness: the resolution of a concrete path against a concrete
dictionary is some. -/
theorem c8_witness : (read_json_path (Json.obj []) (("x")).data).isSome = true :=
  c8_lookup_always_some.1 (Json.obj []) (("x")).data

/-- C9: if substitute returns some text then is_match is true on the
input. -/
theorem c9_some_imp_match (m : Json) (l : List Char)
    (h : (replace_with_string m l).isSome = true) : is_match l = true := by
  rw [rws_eq] at h
  rcases hany : (tokens l).any (isStrTok m) with _ | _
  · rw [hany] at h
    simp at h
  · obtain ⟨w, k, hmem, _⟩ := (any_isStrTok_iff m l).mp hany
    exact mem_occ_is_match l hmem

/-- C9 witness: the greeting text substitutes, hence matches. -/
theorem c9_witness : is_match greetText = true :=
  c9_some_imp_match greetDict greetText (by decide)

/-- C10: mismatched opening and closing quote characters match and
substitute exactly like matching quotes. -/
theorem c10_mismatched_quotes (q1 q2 : Char)
    (h1 : isQuote q1 = true) (h2 : isQuote q2 = true) :
    is_match (c10Text q1 q2) = true ∧
    replace_with_string c10Dict (c10Text q1 q2) = some ((("hello")).data) ∧
    replace_with_string c10Dict (c10Text q1 q2) =
      replace_with_string c10Dict (c10Text squote squote) := by
  rcases isQuote_cases h1 with e1 | e1 <;> rcases isQuote_cases h2 with e2 | e2 <;>
    subst e1 <;> subst e2 <;> exact ⟨by decide, by decide, by decide⟩

/-- C10 witness: a single quote opening and a double quote closing. -/
theorem c10_witness :
    is_match (c10Text squote dquote) = true ∧
    replace_with_string c10Dict (c10Text squote dquote) = some ((("hello")).data) ∧
    replace_with_string c10Dict (c10Text squote dquote) =
      replace_with_string c10Dict (c10Text squote squote) :=
  c10_mismatched_quotes squote dquote (by decide) (by decide)

end TranslateReplace
